import Mathlib

/-!
Verification of `mysignal.py` (transfer-function algebra, discretization,
per-step simulation, PID controller and frequency-response estimation).

The source represents a polynomial as a coefficient array with the highest
degree first (`num`, `den` of `scipy.signal.TransferFunction`).  Internally
we work with lowest-degree-first lists of rationals (`List ℚ`) and reverse at
the boundary, so `TF.num`/`TF.den` keep the source's highest-first order.

The sympy layer (`sy.Poly(num) / sy.Poly(den)` followed by `sy.simplify`,
`as_numer_denom`, `all_coeffs`) is modelled by a canonical reduced fraction of
coefficient lists: `simpFrac` cancels the polynomial gcd of numerator and
denominator (computed by a fuelled Euclidean algorithm on coefficient lists)
and scales the denominator monic.  The numpy/scipy array primitives are
modelled where a claim depends on them: elementwise broadcasting by `npMap`,
array shapes by `NpShape`, the state-space step backend (`tf2ss`,
`cont2discrete`, `kron`, `dot`) as an abstract `StepBackend`, and
`cont2discrete(..., method='bilinear')` on a transfer function as the Tustin
substitution `s = (2/Ts)·(z-1)/(z+1)` cleared of denominators.
-/

/-- Pointwise addition of coefficient lists (lowest degree first);
the shorter list is implicitly padded with zeros. -/
def padd : List ℚ → List ℚ → List ℚ
  | [], ys => ys
  | xs, [] => xs
  | x :: xs, y :: ys => (x + y) :: padd xs ys

/-- Multiplication of a coefficient list by a scalar. -/
def pscale (c : ℚ) (l : List ℚ) : List ℚ := l.map (fun t => c * t)

/-- Convolution product of coefficient lists (lowest degree first). -/
def pmul : List ℚ → List ℚ → List ℚ
  | [], _ => []
  | x :: xs, ys => padd (pscale x ys) (0 :: pmul xs ys)

/-- Remove zero coefficients of highest degree (the tail of a
lowest-degree-first list), yielding a canonical representation. -/
def trim : List ℚ → List ℚ
  | [] => []
  | c :: cs =>
    match trim cs with
    | [] => if c = 0 then [] else [c]
    | c' :: cs' => c :: c' :: cs'

/-- Last entry of a coefficient list (the candidate leading coefficient). -/
def lastC (l : List ℚ) : ℚ := l.getD (l.length - 1) 0

/-- Leading coefficient of the polynomial represented by `l`. -/
def lead (l : List ℚ) : ℚ := lastC (trim l)

/-- Length of the trimmed list: zero for the zero polynomial,
`degree + 1` otherwise. -/
def ddeg (l : List ℚ) : ℕ := (trim l).length

/-- Multiply by the monomial `X^k`: prepend `k` zero coefficients. -/
def shiftK (k : ℕ) (l : List ℚ) : List ℚ := List.replicate k 0 ++ l

/-- Fuelled polynomial long division.  `divModAux f a b = (q, r)` with
`a = b*q + r` and `deg r < deg b`, provided `b` is trimmed and non-empty and
the fuel dominates `ddeg a`. -/
def divModAux : ℕ → List ℚ → List ℚ → List ℚ × List ℚ
  | 0, a, _ => ([], trim a)
  | f + 1, a, b =>
    let a' := trim a
    if a'.length < b.length then ([], a')
    else
      let c := lastC a' / lastC b
      let k := a'.length - b.length
      match divModAux f (padd a' (pscale (-c) (shiftK k b))) b with
      | (q, r) => (padd q (shiftK k [c]), r)

/-- Polynomial division with remainder on coefficient lists. -/
def pdivMod (a b : List ℚ) : List ℚ × List ℚ := divModAux a.length a b

/-- Fuelled Euclidean algorithm for the polynomial gcd of coefficient lists. -/
def pgcd : ℕ → List ℚ → List ℚ → List ℚ
  | 0, a, _ => a
  | f + 1, a, b => if b = [] then a else pgcd f b (trim (pdivMod a b).2)

/-- A rational expression in one variable: a pair of coefficient lists
(numerator, denominator), lowest degree first. -/
abbrev Frac := List ℚ × List ℚ

/-- Canonical simplification of a rational expression, modelling
`sy.simplify` on `Poly(num)/Poly(den)`: cancel the polynomial gcd of
numerator and denominator and normalize the denominator monic. -/
def simpFrac (x : Frac) : Frac :=
  let n := trim x.1
  let d := trim x.2
  if d = [] then (n, d)
  else
    let g := pgcd (d.length + 1) n d
    let qn := (pdivMod n g).1
    let qd := (pdivMod d g).1
    let c := lead qd
    (pscale c⁻¹ qn, pscale c⁻¹ qd)

/-- `poly_to_sympy num den simplify`: build the symbolic rational expression
`Poly(num, s) / Poly(den, s)` from highest-first coefficient arrays and
optionally simplify it (source lines 11-15). -/
def poly_to_sympy (num den : List ℚ) (simplify : Bool) : Frac :=
  let G : Frac := (num.reverse, den.reverse)
  if simplify then simpFrac G else G

/-- `poly_from_sympy xpr`: simplify the expression, split it into numerator
and denominator and extract highest-first coefficient arrays
(source lines 18-27). -/
def poly_from_sympy (xpr : Frac) : List ℚ × List ℚ :=
  let y := simpFrac xpr
  (y.1.reverse, y.2.reverse)

/-- The transfer function `TF`: numerator and denominator coefficient
arrays, highest degree first (source line 79). -/
structure TF where
  num : List ℚ
  den : List ℚ
deriving DecidableEq

/-- `TF.to_sympy` (source lines 135-137): convert the stored coefficient
arrays to a simplified symbolic rational expression. -/
def TF.to_sympy (f : TF) : Frac := poly_to_sympy f.num f.den true

/-- `TF.from_sympy` (source lines 139-142): extract coefficients from a
symbolic expression and construct a `TF`. -/
def TF.from_sympy (xpr : Frac) : TF :=
  let nd := poly_from_sympy xpr
  ⟨nd.1, nd.2⟩

/-- The right operand of a binary `TF` operator: another transfer function
or a plain numeric scalar (`_check_other`, source lines 126-130). -/
inductive OtherOperand where
  | tf (g : TF)
  | num (c : ℚ)

/-- `TF._check_other` (source lines 126-130): a plain number is used as-is
(here: as the constant rational expression), a `TF` is converted to its
symbolic form. -/
def TF.check_other : OtherOperand → Frac
  | .tf g => g.to_sympy
  | .num c => ([c], [1])

/-- Sum of two rational expressions over a common denominator
(the unsimplified sympy expression `self_s + other_s`). -/
def fadd (x y : Frac) : Frac :=
  (padd (pmul x.1 y.2) (pmul y.1 x.2), pmul x.2 y.2)

/-- Product of two rational expressions
(the unsimplified sympy expression `self_s * other_s`). -/
def fmul (x y : Frac) : Frac := (pmul x.1 y.1, pmul x.2 y.2)

/-- `TF.__mul__` (source lines 96-99). -/
def TF.mul (f : TF) (other : OtherOperand) : TF :=
  TF.from_sympy (fmul f.to_sympy (TF.check_other other))

/-- `TF.__add__` (source lines 111-114). -/
def TF.add (f : TF) (other : OtherOperand) : TF :=
  TF.from_sympy (fadd f.to_sympy (TF.check_other other))

/-- `TF.__rmul__ = TF.__mul__` (source line 132). -/
def TF.rmul : TF → OtherOperand → TF := TF.mul

/-- `TF.__radd__ = TF.__add__` (source line 133). -/
def TF.radd : TF → OtherOperand → TF := TF.add

/-- Powers of a coefficient-list polynomial. -/
def ppow (p : List ℚ) : ℕ → List ℚ
  | 0 => [1]
  | n + 1 => pmul p (ppow p n)

/-- Bilinear (Tustin) substitution, cleared of denominators: coefficient `a0`
at running index `i` contributes `a0 · c^i · (z-1)^i · (z+1)^j`, with `j`
decreasing from `m-1`; the result is the image of `Poly(a)` under
`s = c·(z-1)/(z+1)` multiplied by `(z+1)^(m-1)`. -/
def tustinAux (c : ℚ) : ℕ → ℕ → List ℚ → List ℚ
  | _, _, [] => []
  | i, j, a0 :: as =>
    padd (pscale (a0 * c ^ i) (pmul (ppow [-1, 1] i) (ppow [1, 1] j)))
      (tustinAux c (i + 1) (j - 1) as)

/-- `TF.as_poly_z` (source lines 147-150).  Modelled from the spec for the
external call: `scipy.signal.cont2discrete((num, den), Ts, method='bilinear')`
is third-party code, modelled as the Tustin substitution
`s = (2/Ts)·(z-1)/(z+1)` on `num/den` with denominators cleared by
`(z+1)^(m-1)`, which is undefined at `Ts = 0` (division by `Ts`); the result
is passed through `poly_to_sympy(numz, denz, 'z')`, i.e. simplified.
The source itself performs no validation of `Ts`. -/
def TF.as_poly_z (f : TF) (Ts : ℚ) : Option Frac :=
  if Ts = 0 then none
  else
    let nL := f.num.reverse
    let dL := f.den.reverse
    let m := max nL.length dL.length
    some (simpFrac (tustinAux (2 / Ts) 0 (m - 1) nL, tustinAux (2 / Ts) 0 (m - 1) dL))

/-- A numpy value as passed for `u` in `TF.apply_f`: a plain scalar, a 1-D
array, or a 2-D array. -/
inductive NpVal where
  | scalar (v : ℚ)
  | arr (v : List ℚ)
  | mat (v : List (List ℚ))
deriving DecidableEq

/-- Elementwise (broadcast) application of a scalar function, as numpy
arithmetic does on `u*self.num[0]/self.den[0]`. -/
def npMap (g : ℚ → ℚ) : NpVal → NpVal
  | .scalar v => .scalar (g v)
  | .arr v => .arr (v.map g)
  | .mat v => .mat (v.map (fun r => r.map g))

/-- The external scipy routines used by the general branch of `TF.apply_f`
(`signal.tf2ss`, `signal.cont2discrete`, `np.kron`, matrix products):
an abstract backend mapping the transfer function, input, state and period
to the output and next state. -/
structure StepBackend where
  general : TF → NpVal → List ℚ → ℚ → NpVal × List ℚ

/-- A trivially defined backend, used to instantiate theorems whose
statement does not depend on the backend. -/
def trivialBackend : StepBackend := ⟨fun _ _ x _ => (NpVal.scalar 0, x)⟩

/-- `TF.apply_f` (source lines 152-187).  The degenerate branch
(`den.size == 1 and num.size == 1`) is translated from the source; the
general branch delegates to the external scipy routines, abstracted as
`bk.general`. -/
def TF.apply_f (bk : StepBackend) (f : TF) (u : NpVal) (x : List ℚ) (Ts : ℚ) :
    NpVal × List ℚ :=
  if f.den.length = 1 ∧ f.num.length = 1 then
    (npMap (fun t => t * f.num.headD 0 / f.den.headD 0) u, x)
  else bk.general f u x Ts

/-- The shape of a numpy value: scalar, 1-D of length `n`, or 2-D `m × n`. -/
inductive NpShape where
  | scalar
  | oneD (n : ℕ)
  | twoD (m n : ℕ)
deriving DecidableEq

/-- Number of elements (`size`) of a numpy shape. -/
def npsize : NpShape → ℕ
  | .scalar => 1
  | .oneD n => n
  | .twoD m n => m * n

/-- Input normalization of `TF.apply_f` (source lines 155-161): a scalar
becomes `np.array([[u]]).T` of shape `(1,1)`, a 1-D array is reshaped to a
column, a 2-D array whose second dimension is not 1 is transposed. -/
def normShape : NpShape → NpShape
  | .scalar => .twoD 1 1
  | .oneD n => .twoD n 1
  | .twoD m n => if n ≠ 1 then .twoD n m else .twoD m n

/-- Shape of a numpy transpose. -/
def transposeShape : NpShape → NpShape
  | .twoD m n => .twoD n m
  | s => s

/-- The "put back in same order" block of `TF.apply_f`
(source lines 176-183), applied to the shape of `y`.  Note the source tests
the rebound local `u`, which at that point always holds the normalized
value, so only the last branch can ever be reached. -/
def putbackShape (un y : NpShape) : NpShape :=
  match un with
  | .scalar => .scalar
  | .oneD _ => .oneD (npsize y)
  | .twoD _ k => if k ≠ 1 then transposeShape y else y

/-- Shape of the output `y` of the general branch of `TF.apply_f` as a
function of the shape of the input `u`: normalization, the column result
`y` of size `u.size`, the put-back block, and the final
`y.reshape(y.size)` of the return statement (source line 187). -/
def apply_f_shape (s : NpShape) : NpShape :=
  let un := normShape s
  let y0 := NpShape.twoD (npsize un) 1
  let y1 := putbackShape un y0
  NpShape.oneD (npsize y1)

/-- The store of allocated numpy arrays, for the frame property of
`TF.apply_f`: references are indices, allocation appends. -/
def alloc (v : List ℚ) (s : List (List ℚ)) : ℕ × List (List ℚ) :=
  (s.length, s ++ [v])

/-- `TF.apply_f` threaded through an explicit array store: the transfer
function's `num`/`den` and the caller's state `x` live in the store at the
given references; the body reads them and computes `(y, x_next)`.  No
statement of the source writes in place.  In the degenerate branch
(source line 154) the returned state is the caller's own `x` object, so
the reference `xR` itself is returned and nothing is allocated; in the
general branch `x1_vec = A.dot(x_vec) + B.dot(u)` is a freshly allocated
array, so the new state is allocated in the store. -/
def apply_f_heap (bk : StepBackend) (numR denR xR : ℕ) (u : NpVal) (Ts : ℚ)
    (s : List (List ℚ)) : (NpVal × ℕ) × List (List ℚ) :=
  let f : TF := ⟨s.getD numR [], s.getD denR []⟩
  let yx := TF.apply_f bk f u (s.getD xR []) Ts
  if f.den.length = 1 ∧ f.num.length = 1 then
    ((yx.1, xR), s)
  else
    let a := alloc yx.2 s
    ((yx.1, a.1), a.2)

/-- `PID.__init__` (source lines 246-252): the controller's transfer
function, built from `TF([P],[1])` by adding `TF([I],[1,0])` when `I ≠ 0`
and `TF([D,0],[D/8,1])` when `D ≠ 0`. -/
def PID_tf (P I D : ℚ) : TF :=
  let tf1 : TF := ⟨[P], [1]⟩
  let tf2 := if I = 0 then tf1 else tf1.add (.tf ⟨[I], [1, 0]⟩)
  if D = 0 then tf2 else tf2.add (.tf ⟨[D, 0], [D / 8, 1]⟩)

/-- The `PID` controller's retained gains (source lines 254-256). -/
structure PID where
  kP : ℚ
  kI : ℚ
  kD : ℚ

/-- Number of columns (time samples) of the 2-D error history array. -/
def ncols (e : List (List ℚ)) : ℕ := (e.headD []).length

/-- `PID.apply_fd` (source lines 258-260):
`kP*e[:, -1] + kI*np.sum(e, axis=1)*Ts + kD*(e[:, -1]-e[:, -2])/Ts`.
The expression indexes column `-2` unconditionally, so numpy raises an
`IndexError` when the history has fewer than two time samples; this is
modelled by returning `none` in that case. -/
def PID.apply_fd (p : PID) (e : List (List ℚ)) (Ts : ℚ) : Option (List ℚ) :=
  if 2 ≤ ncols e then
    some (e.map fun r =>
      p.kP * r.getD (r.length - 1) 0 + p.kI * r.sum * Ts
        + p.kD * (r.getD (r.length - 1) 0 - r.getD (r.length - 2) 0) / Ts)
  else none

/-- `np.fft.fft(a)` after the zero-bin fix `A[idx] = 1`
(source lines 51-56): every bin where `A` vanishes is replaced by one. -/
def fixA {F : Type} [Field F] [DecidableEq F] (A : List F) : List F :=
  A.map (fun a => if a = 0 then 1 else a)

/-- `np.fft.fft(c)` after the zero-bin fix `C[idx] = 0`
(source lines 54-55): every bin where `A` vanishes is replaced by zero. -/
def fixC {F : Type} [Field F] [DecidableEq F] (A C : List F) : List F :=
  List.zipWith (fun c a => if a = 0 then 0 else c) C A

/-- The elementwise quotient `H = C / A` of the fixed spectra
(source line 57). -/
def fftRatio {F : Type} [Field F] [DecidableEq F] (A C : List F) : List F :=
  List.zipWith (fun c a => c / a) (fixC A C) (fixA A)

/-- One channel of `TF_from_signal` after the FFTs: the guarded quotient
truncated to the first `half` bins (source lines 51-60).  `A` and `C` stand
for `np.fft.fft(a)` and `np.fft.fft(c)`, the external FFTs of the reference
and of the channel. -/
def TF_from_signal_chan {F : Type} [Field F] [DecidableEq F]
    (A C : List F) (half : ℕ) : List F :=
  (fftRatio A C).take half

/-- Interpretation of a lowest-first coefficient list as a polynomial. -/
noncomputable def toP : List ℚ → Polynomial ℚ
  | [] => 0
  | c :: cs => Polynomial.C c + Polynomial.X * toP cs

/-- Evaluation of a lowest-first coefficient list at a point. -/
def evalP : List ℚ → ℚ → ℚ
  | [], _ => 0
  | c :: cs, s => c + s * evalP cs s

/-- Evaluation of a highest-first coefficient array (as stored in a `TF`)
at a point. -/
def evalPH (l : List ℚ) (s : ℚ) : ℚ := evalP l.reverse s

/-- Value of a rational expression at a point. -/
def evalFrac (x : Frac) (s : ℚ) : ℚ := evalP x.1 s / evalP x.2 s

/-- Value of a transfer function at a point. -/
def evalTF (f : TF) (s : ℚ) : ℚ := evalPH f.num s / evalPH f.den s

/-! ### Basic lemmas on coefficient lists -/

theorem padd_nil_right (xs : List ℚ) : padd xs [] = xs := by
  cases xs <;> rfl

theorem padd_comm (xs : List ℚ) : ∀ ys, padd xs ys = padd ys xs := by
  induction xs with
  | nil => intro ys; cases ys <;> rfl
  | cons x xs ih =>
    intro ys
    cases ys with
    | nil => rfl
    | cons y ys => simp [padd, ih ys, add_comm]

theorem getD_padd (xs : List ℚ) :
    ∀ (ys : List ℚ) (i : ℕ), (padd xs ys).getD i 0 = xs.getD i 0 + ys.getD i 0 := by
  induction xs with
  | nil => intro ys i; simp [padd]
  | cons x xs ih =>
    intro ys i
    cases ys with
    | nil => simp [padd]
    | cons y ys =>
      cases i with
      | zero => simp [padd]
      | succ n => simpa [padd] using ih ys n

theorem getD_pscale (c : ℚ) (l : List ℚ) :
    ∀ i : ℕ, (pscale c l).getD i 0 = c * l.getD i 0 := by
  induction l with
  | nil => intro i; simp [pscale]
  | cons x xs ih =>
    intro i
    cases i with
    | zero => simp [pscale]
    | succ n => simpa [pscale] using ih n

theorem length_padd (xs : List ℚ) :
    ∀ ys : List ℚ, (padd xs ys).length = max xs.length ys.length := by
  induction xs with
  | nil => intro ys; simp [padd]
  | cons x xs ih =>
    intro ys
    cases ys with
    | nil => simp [padd]
    | cons y ys => simp [padd, ih ys, Nat.succ_max_succ]

theorem length_pscale (c : ℚ) (l : List ℚ) : (pscale c l).length = l.length := by
  simp [pscale]

theorem length_shiftK (k : ℕ) (l : List ℚ) : (shiftK k l).length = k + l.length := by
  simp [shiftK]

theorem getD_shiftK (k : ℕ) (l : List ℚ) :
    ∀ i : ℕ, (shiftK k l).getD i 0 = if i < k then 0 else l.getD (i - k) 0 := by
  induction k with
  | zero => intro i; simp [shiftK]
  | succ k ih =>
    intro i
    have h : shiftK (k + 1) l = 0 :: shiftK k l := by
      simp [shiftK, List.replicate_succ]
    cases i with
    | zero => rw [h]; simp
    | succ n =>
      rw [h, List.getD_cons_succ, ih n]
      simp [Nat.succ_lt_succ_iff, Nat.succ_sub_succ]

/-! ### Lemmas about `trim` -/

theorem lastC_cons_cons (c d : ℚ) (ds : List ℚ) :
    lastC (c :: d :: ds) = lastC (d :: ds) := by
  simp [lastC]

theorem trim_length_le (l : List ℚ) : (trim l).length ≤ l.length := by
  induction l with
  | nil => simp [trim]
  | cons c cs ih =>
    show (match trim cs with
      | [] => if c = 0 then [] else [c]
      | c' :: cs' => c :: c' :: cs').length ≤ (c :: cs).length
    cases h : trim cs with
    | nil =>
      by_cases hc : c = 0 <;> simp [hc]
    | cons c' cs' =>
      simp only [List.length_cons]
      have := ih
      rw [h] at this
      simpa using this

theorem trim_getLast_ne (l : List ℚ) (h : trim l ≠ []) : lastC (trim l) ≠ 0 := by
  induction l with
  | nil => simp [trim] at h
  | cons c cs ih =>
    revert h
    show trim (c :: cs) ≠ [] → lastC (trim (c :: cs)) ≠ 0
    have hev : trim (c :: cs) = match trim cs with
      | [] => if c = 0 then [] else [c]
      | c' :: cs' => c :: c' :: cs' := rfl
    cases h : trim cs with
    | nil =>
      rw [hev, h]
      by_cases hc : c = 0
      · simp [hc]
      · rw [if_neg hc]
        intro _
        simpa [lastC] using hc
    | cons c' cs' =>
      rw [hev, h]
      intro _
      rw [lastC_cons_cons]
      have := ih (by rw [h]; exact List.cons_ne_nil _ _)
      rwa [h] at this

theorem trim_idem (l : List ℚ) : trim (trim l) = trim l := by
  induction l with
  | nil => simp [trim]
  | cons c cs ih =>
    have hev : trim (c :: cs) = match trim cs with
      | [] => if c = 0 then [] else [c]
      | c' :: cs' => c :: c' :: cs' := rfl
    cases h : trim cs with
    | nil =>
      rw [hev, h]
      by_cases hc : c = 0
      · simp [hc, trim]
      · simp [hc, trim]
    | cons c' cs' =>
      rw [hev, h]
      show trim (c :: c' :: cs') = c :: c' :: cs'
      have htail : trim (c' :: cs') = c' :: cs' := by
        rw [← h, ih, h]
      show (match trim (c' :: cs') with
        | [] => if c = 0 then [] else [c]
        | x :: xs => c :: x :: xs) = c :: c' :: cs'
      rw [htail]

theorem getD_trim (l : List ℚ) : ∀ n : ℕ, (trim l).getD n 0 = l.getD n 0 := by
  induction l with
  | nil => intro n; simp [trim]
  | cons c cs ih =>
    intro n
    have hev : trim (c :: cs) = match trim cs with
      | [] => if c = 0 then [] else [c]
      | c' :: cs' => c :: c' :: cs' := rfl
    cases h : trim cs with
    | nil =>
      rw [hev, h]
      have htail : ∀ m : ℕ, cs.getD m 0 = 0 := by
        intro m
        have := ih m
        rw [h] at this
        simpa using this.symm
      by_cases hc : c = 0
      · rw [if_pos hc]
        cases n with
        | zero => simp [hc]
        | succ m => simpa using (htail m).symm
      · rw [if_neg hc]
        cases n with
        | zero => simp
        | succ m => simpa using (htail m).symm
    | cons c' cs' =>
      rw [hev, h]
      cases n with
      | zero => simp
      | succ m =>
        simp only [List.getD_cons_succ]
        have := ih m
        rwa [h] at this

/-! ### The polynomial semantics of coefficient lists -/

theorem toP_nil : toP [] = 0 := rfl

theorem toP_cons (c : ℚ) (cs : List ℚ) :
    toP (c :: cs) = Polynomial.C c + Polynomial.X * toP cs := rfl

theorem toP_padd (a : List ℚ) : ∀ b : List ℚ, toP (padd a b) = toP a + toP b := by
  induction a with
  | nil => intro b; simp [padd, toP_nil]
  | cons x xs ih =>
    intro b
    cases b with
    | nil => simp [padd, toP_nil]
    | cons y ys =>
      show toP ((x + y) :: padd xs ys) = _
      rw [toP_cons, toP_cons, toP_cons, ih ys]
      push_cast [Polynomial.C_add]
      ring

theorem toP_pscale (c : ℚ) (l : List ℚ) :
    toP (pscale c l) = Polynomial.C c * toP l := by
  induction l with
  | nil => simp [pscale, toP_nil]
  | cons x xs ih =>
    show toP (c * x :: pscale c xs) = _
    rw [toP_cons, toP_cons, ih, Polynomial.C_mul]
    ring

theorem toP_pmul (a : List ℚ) : ∀ b : List ℚ, toP (pmul a b) = toP a * toP b := by
  induction a with
  | nil => intro b; simp [pmul, toP_nil]
  | cons x xs ih =>
    intro b
    show toP (padd (pscale x b) (0 :: pmul xs b)) = _
    rw [toP_padd, toP_pscale, toP_cons, toP_cons, ih b]
    simp only [Polynomial.C_0]
    ring

theorem toP_shiftK (k : ℕ) (l : List ℚ) :
    toP (shiftK k l) = Polynomial.X ^ k * toP l := by
  induction k with
  | zero => simp [shiftK]
  | succ n ih =>
    have h : shiftK (n + 1) l = 0 :: shiftK n l := by
      simp [shiftK, List.replicate_succ]
    rw [h, toP_cons, ih]
    simp only [Polynomial.C_0]
    ring

theorem toP_trim (l : List ℚ) : toP (trim l) = toP l := by
  induction l with
  | nil => simp [trim]
  | cons c cs ih =>
    have hev : trim (c :: cs) = match trim cs with
      | [] => if c = 0 then [] else [c]
      | c' :: cs' => c :: c' :: cs' := rfl
    cases h : trim cs with
    | nil =>
      have hcs : toP cs = 0 := by rw [← ih, h, toP_nil]
      rw [hev, h]
      by_cases hc : c = 0
      · rw [if_pos hc, toP_cons, hcs, hc]
        simp [toP_nil]
      · rw [if_neg hc, toP_cons, toP_cons, hcs]
        simp [toP_nil]
    | cons c' cs' =>
      have hcc : trim (c :: cs) = c :: trim cs := by rw [hev, h]
      rw [hcc, toP_cons, ih, ← toP_cons]

theorem coeff_toP (l : List ℚ) : ∀ n : ℕ, (toP l).coeff n = l.getD n 0 := by
  induction l with
  | nil => intro n; simp [toP_nil]
  | cons c cs ih =>
    intro n
    cases n with
    | zero =>
      rw [toP_cons]
      simp [Polynomial.mul_coeff_zero]
    | succ m =>
      rw [toP_cons]
      simp [Polynomial.coeff_X_mul, Polynomial.coeff_C, ih m]

theorem evalP_eq_eval (l : List ℚ) (s : ℚ) : evalP l s = (toP l).eval s := by
  induction l with
  | nil => simp [evalP, toP_nil]
  | cons c cs ih =>
    simp [evalP, toP_cons, ih]

theorem toP_eq_zero_iff (l : List ℚ) : toP l = 0 ↔ trim l = [] := by
  constructor
  · intro h
    by_contra hne
    have h1 : lastC (trim l) ≠ 0 := trim_getLast_ne l hne
    apply h1
    have h2 : (trim l).getD ((trim l).length - 1) 0 = l.getD ((trim l).length - 1) 0 :=
      getD_trim l _
    have h3 : (toP l).coeff ((trim l).length - 1) = l.getD ((trim l).length - 1) 0 :=
      coeff_toP l _
    rw [h, Polynomial.coeff_zero] at h3
    rw [lastC, h2, ← h3]
  · intro h
    rw [← toP_trim, h, toP_nil]

theorem toP_getD_eq (a b : List ℚ) (h : toP a = toP b) :
    ∀ n : ℕ, a.getD n 0 = b.getD n 0 := by
  intro n
  rw [← coeff_toP, ← coeff_toP, h]

theorem trim_length_le_of_getD (a b : List ℚ)
    (hget : ∀ n : ℕ, (trim a).getD n 0 = (trim b).getD n 0) :
    (trim a).length ≤ (trim b).length := by
  by_contra hlt
  push_neg at hlt
  have hne : trim a ≠ [] := by
    intro h
    rw [h] at hlt
    simp at hlt
  have h1 : lastC (trim a) ≠ 0 := trim_getLast_ne a hne
  have h2 := hget ((trim a).length - 1)
  have hz : (trim b).getD ((trim a).length - 1) 0 = 0 :=
    List.getD_eq_default _ _ (by omega)
  rw [hz] at h2
  exact h1 (by rw [lastC, h2])

theorem trim_eq_of_toP_eq (a b : List ℚ) (h : toP a = toP b) : trim a = trim b := by
  have hget : ∀ n : ℕ, (trim a).getD n 0 = (trim b).getD n 0 := by
    intro n
    rw [getD_trim, getD_trim]
    exact toP_getD_eq a b h n
  have hlen : (trim a).length = (trim b).length :=
    le_antisymm (trim_length_le_of_getD a b hget)
      (trim_length_le_of_getD b a (fun n => (hget n).symm))
  apply List.ext_getElem hlen
  intro i h1 h2
  have := hget i
  rwa [List.getD_eq_getElem (trim a) 0 h1, List.getD_eq_getElem (trim b) 0 h2] at this

/-! ### Correctness of the fuelled long division -/

theorem ddeg_lt_of_last_zero (l : List ℚ) : l ≠ [] → lastC l = 0 → ddeg l < l.length := by
  induction l with
  | nil => intro h; exact absurd rfl h
  | cons c cs ih =>
    intro _ h2
    cases cs with
    | nil =>
      have hc : c = 0 := by simpa [lastC] using h2
      simp [ddeg, trim, hc]
    | cons d ds =>
      rw [lastC_cons_cons] at h2
      have ihd := ih (List.cons_ne_nil _ _) h2
      have hev : trim (c :: d :: ds) = match trim (d :: ds) with
        | [] => if c = 0 then [] else [c]
        | c' :: cs' => c :: c' :: cs' := rfl
      rw [ddeg, hev]
      cases h : trim (d :: ds) with
      | nil =>
        by_cases hc : c = 0 <;> simp [hc, List.length_cons]
      | cons c' cs' =>
        rw [ddeg, h] at ihd
        simp only [List.length_cons] at ihd ⊢
        omega

theorem divModAux_succ_unfold (f : ℕ) (a b : List ℚ) (h : ¬ (trim a).length < b.length) :
    divModAux (f + 1) a b =
      (padd (divModAux f (padd (trim a)
          (pscale (-(lastC (trim a) / lastC b))
            (shiftK ((trim a).length - b.length) b))) b).1
        (shiftK ((trim a).length - b.length) [lastC (trim a) / lastC b]),
       (divModAux f (padd (trim a)
          (pscale (-(lastC (trim a) / lastC b))
            (shiftK ((trim a).length - b.length) b))) b).2) := by
  simp only [divModAux]
  rw [if_neg h]

theorem divModAux_spec (b : List ℚ) (hb : trim b = b) (hbne : b ≠ []) :
    ∀ (f : ℕ) (a : List ℚ), ddeg a ≤ f →
      toP a = toP b * toP (divModAux f a b).1 + toP (divModAux f a b).2 ∧
      (divModAux f a b).2.length < b.length ∧
      trim (divModAux f a b).2 = (divModAux f a b).2 := by
  have hlb : lastC b ≠ 0 := by
    have := trim_getLast_ne b (by rw [hb]; exact hbne)
    rwa [hb] at this
  have hblen : 1 ≤ b.length := List.length_pos.mpr hbne
  intro f
  induction f with
  | zero =>
    intro a ha
    have htr : trim a = [] := List.length_eq_zero.mp (Nat.le_zero.mp ha)
    simp only [divModAux]
    refine ⟨?_, ?_, ?_⟩
    · rw [htr, toP_nil, ← toP_trim a, htr, toP_nil]; ring
    · rw [htr]; simpa using hblen
    · rw [htr]; rfl
  | succ f ih =>
    intro a ha
    by_cases hlt : (trim a).length < b.length
    · have hres : divModAux (f + 1) a b = ([], trim a) := by
        simp only [divModAux]
        rw [if_pos hlt]
      rw [hres]
      refine ⟨?_, ?_, ?_⟩
      · rw [toP_nil, ← toP_trim a]; ring
      · simpa using hlt
      · exact trim_idem a
    · rw [divModAux_succ_unfold f a b hlt]
      set a' := trim a with ha'def
      set c := lastC a' / lastC b with hcdef
      set k := a'.length - b.length with hkdef
      set a2 := padd a' (pscale (-c) (shiftK k b)) with ha2def
      set q' := (divModAux f a2 b).1 with hq'def
      set r := (divModAux f a2 b).2 with hrdef
      have hk : k + b.length = a'.length := by omega
      have ha'ne : a' ≠ [] := by
        apply List.ne_nil_of_length_pos
        omega
      have hla' : lastC a' ≠ 0 := trim_getLast_ne a (by rw [← ha'def] at *; exact ha'ne)
      have hlen2 : a2.length = a'.length := by
        rw [ha2def, length_padd, length_pscale, length_shiftK, hk]
        omega
      have hlast2 : lastC a2 = 0 := by
        rw [lastC, hlen2, ha2def, getD_padd, getD_pscale, getD_shiftK]
        have hik : ¬ a'.length - 1 < k := by omega
        rw [if_neg hik]
        have hib : a'.length - 1 - k = b.length - 1 := by omega
        rw [hib]
        show lastC a' + -c * lastC b = 0
        rw [hcdef]
        field_simp
      have ha2ne : a2 ≠ [] := by
        apply List.ne_nil_of_length_pos
        omega
      have hdeg2 : ddeg a2 ≤ f := by
        have := ddeg_lt_of_last_zero a2 ha2ne hlast2
        have hda : ddeg a = a'.length := rfl
        omega
      obtain ⟨heq, hrlen, hrtrim⟩ := ih a2 hdeg2
      rw [← hq'def, ← hrdef] at heq
      refine ⟨?_, hrlen, hrtrim⟩
      have htoPa : toP a = toP a' := (toP_trim a).symm
      have ha2P : toP a2 = toP a' + -Polynomial.C c * (Polynomial.X ^ k * toP b) := by
        rw [ha2def, toP_padd, toP_pscale, toP_shiftK, map_neg]
      have hqP : toP (padd q' (shiftK k [c]))
          = toP q' + Polynomial.X ^ k * Polynomial.C c := by
        rw [toP_padd, toP_shiftK, toP_cons, toP_nil]
        ring
      rw [htoPa, hqP]
      linear_combination heq - ha2P

theorem pdivMod_spec (b : List ℚ) (hb : trim b = b) (hbne : b ≠ []) (a : List ℚ) :
    toP a = toP b * toP (pdivMod a b).1 + toP (pdivMod a b).2 ∧
    (pdivMod a b).2.length < b.length ∧
    trim (pdivMod a b).2 = (pdivMod a b).2 :=
  divModAux_spec b hb hbne a.length a (trim_length_le a)

/-! ### Correctness of the fuelled Euclidean algorithm -/

theorem pgcd_nil (f : ℕ) (a : List ℚ) : pgcd f a [] = a := by
  cases f <;> simp [pgcd]

theorem pgcd_dvd : ∀ (f : ℕ) (b : List ℚ), trim b = b → ddeg b ≤ f →
    ∀ a : List ℚ, toP (pgcd f a b) ∣ toP a ∧ toP (pgcd f a b) ∣ toP b := by
  intro f
  induction f with
  | zero =>
    intro b hb hd a
    have hbnil : b = [] := by
      have : b.length = 0 := by
        have : ddeg b = b.length := by rw [ddeg, hb]
        omega
      exact List.length_eq_zero.mp this
    subst hbnil
    rw [pgcd_nil]
    exact ⟨dvd_refl _, by rw [toP_nil]; exact dvd_zero _⟩
  | succ f ih =>
    intro b hb hd a
    by_cases hbnil : b = []
    · subst hbnil
      rw [pgcd_nil]
      exact ⟨dvd_refl _, by rw [toP_nil]; exact dvd_zero _⟩
    · have hres : pgcd (f + 1) a b = pgcd f b (trim (pdivMod a b).2) := by
        simp only [pgcd]
        rw [if_neg hbnil]
      obtain ⟨heq, hrlen, hrtrim⟩ := pdivMod_spec b hb hbnil a
      rw [hrtrim] at hres
      have hddr : ddeg (pdivMod a b).2 ≤ f := by
        have h1 : ddeg (pdivMod a b).2 = (pdivMod a b).2.length := by
          rw [ddeg, hrtrim]
        have h2 : ddeg b = b.length := by rw [ddeg, hb]
        omega
      obtain ⟨hdb, hdr⟩ := ih (pdivMod a b).2 hrtrim hddr b
      rw [hres]
      refine ⟨?_, hdb⟩
      rw [heq]
      exact dvd_add (Dvd.dvd.mul_right hdb _) hdr

theorem pgcd_trim : ∀ (f : ℕ) (a b : List ℚ), trim a = a → trim b = b →
    trim (pgcd f a b) = pgcd f a b := by
  intro f
  induction f with
  | zero => intro a b ha _; simpa [pgcd] using ha
  | succ f ih =>
    intro a b ha hbt
    by_cases hbnil : b = []
    · subst hbnil; rw [pgcd_nil]; exact ha
    · have hres : pgcd (f + 1) a b = pgcd f b (trim (pdivMod a b).2) := by
        simp only [pgcd]
        rw [if_neg hbnil]
      rw [hres]
      exact ih b _ hbt (trim_idem _)

theorem pgcd_ne_nil : ∀ (f : ℕ) (b : List ℚ), trim b = b → ddeg b ≤ f → b ≠ [] →
    ∀ a : List ℚ, pgcd f a b ≠ [] := by
  intro f
  induction f with
  | zero =>
    intro b hb hd hbne a
    exfalso
    have : ddeg b = b.length := by rw [ddeg, hb]
    have : b.length = 0 := by omega
    exact hbne (List.length_eq_zero.mp this)
  | succ f ih =>
    intro b hb hd hbne a
    have hres : pgcd (f + 1) a b = pgcd f b (trim (pdivMod a b).2) := by
      simp only [pgcd]
      rw [if_neg hbne]
    rw [hres]
    obtain ⟨heq, hrlen, hrtrim⟩ := pdivMod_spec b hb hbne a
    by_cases hrnil : trim (pdivMod a b).2 = []
    · rw [hrnil, pgcd_nil]
      exact hbne
    · apply ih (trim (pdivMod a b).2) (trim_idem _) _ hrnil
      have h1 : ddeg (trim (pdivMod a b).2) = (pdivMod a b).2.length := by
        rw [ddeg, trim_idem, hrtrim]
      have h2 : ddeg b = b.length := by rw [ddeg, hb]
      omega

/-! ### Correctness of `simpFrac` -/

theorem degree_toP_lt (l : List ℚ) : (toP l).degree < (l.length : ℕ) := by
  rw [Polynomial.degree_lt_iff_coeff_zero]
  intro m hm
  rw [coeff_toP]
  exact List.getD_eq_default _ _ hm

theorem le_degree_toP (l : List ℚ) (hl : trim l = l) (hne : l ≠ []) :
    ((l.length - 1 : ℕ) : WithBot ℕ) ≤ (toP l).degree := by
  apply Polynomial.le_degree_of_ne_zero
  rw [coeff_toP]
  have h := trim_getLast_ne l (by rw [hl]; exact hne)
  rw [hl] at h
  exact h

theorem quotient_exact (g : List ℚ) (hg : trim g = g) (hgne : g ≠ [])
    (d : List ℚ) (hdvd : toP g ∣ toP d) :
    toP d = toP g * toP (pdivMod d g).1 := by
  obtain ⟨heq, hrlen, hrtrim⟩ := pdivMod_spec g hg hgne d
  have hdvdr : toP g ∣ toP (pdivMod d g).2 := by
    have hsub : toP (pdivMod d g).2 = toP d - toP g * toP (pdivMod d g).1 := by
      rw [heq]; ring
    rw [hsub]
    exact dvd_sub hdvd (dvd_mul_right _ _)
  have hr0 : toP (pdivMod d g).2 = 0 := by
    apply Polynomial.eq_zero_of_dvd_of_degree_lt hdvdr
    calc (toP (pdivMod d g).2).degree
        < ((pdivMod d g).2.length : ℕ) := degree_toP_lt _
      _ ≤ ((g.length - 1 : ℕ) : WithBot ℕ) := by
          have : (pdivMod d g).2.length ≤ g.length - 1 := by omega
          exact_mod_cast this
      _ ≤ (toP g).degree := le_degree_toP g hg hgne
  rw [heq, hr0, add_zero]

theorem simpFrac_pos_unfold (n d : List ℚ) (hd : trim d ≠ []) :
    simpFrac (n, d) =
      (pscale (lead (pdivMod (trim d) (pgcd ((trim d).length + 1) (trim n) (trim d))).1)⁻¹
         (pdivMod (trim n) (pgcd ((trim d).length + 1) (trim n) (trim d))).1,
       pscale (lead (pdivMod (trim d) (pgcd ((trim d).length + 1) (trim n) (trim d))).1)⁻¹
         (pdivMod (trim d) (pgcd ((trim d).length + 1) (trim n) (trim d))).1) := by
  simp only [simpFrac]
  rw [if_neg hd]

theorem simpFrac_spec (n d : List ℚ) (hd : toP d ≠ 0) :
    toP (simpFrac (n, d)).1 * toP d = toP (simpFrac (n, d)).2 * toP n ∧
    toP (simpFrac (n, d)).2 ≠ 0 ∧
    ∃ u : Polynomial ℚ, toP d = u * toP (simpFrac (n, d)).2 := by
  have hdtr : trim d ≠ [] := by
    intro h
    exact hd ((toP_eq_zero_iff d).mpr h)
  rw [simpFrac_pos_unfold n d hdtr]
  dsimp only
  set n' := trim n with hn'
  set d' := trim d with hd'
  set g := pgcd (d'.length + 1) n' d' with hg
  set qn := (pdivMod n' g).1 with hqn
  set qd := (pdivMod d' g).1 with hqd
  set c := lead qd with hc
  have hd'trim : trim d' = d' := trim_idem d
  have hn'trim : trim n' = n' := trim_idem n
  have hddeg : ddeg d' ≤ d'.length + 1 := by
    have : ddeg d' = d'.length := by rw [ddeg, hd'trim]
    omega
  have hgtrim : trim g = g := pgcd_trim _ _ _ hn'trim hd'trim
  have hgne : g ≠ [] := pgcd_ne_nil _ d' hd'trim hddeg hdtr n'
  obtain ⟨hdvdn, hdvdd⟩ := pgcd_dvd _ d' hd'trim hddeg n'
  have hfn : toP n' = toP g * toP qn := quotient_exact g hgtrim hgne n' hdvdn
  have hfd : toP d' = toP g * toP qd := quotient_exact g hgtrim hgne d' hdvdd
  have htn : toP n' = toP n := toP_trim n
  have htd : toP d' = toP d := toP_trim d
  have hqd0 : toP qd ≠ 0 := by
    intro h0
    apply hd
    rw [← htd, hfd, h0, mul_zero]
  have hc0 : c ≠ 0 := by
    rw [hc, lead]
    apply trim_getLast_ne
    intro h
    exact hqd0 ((toP_eq_zero_iff qd).mpr h)
  refine ⟨?_, ?_, ?_⟩
  · rw [toP_pscale, toP_pscale, ← htd, ← htn, hfd, hfn]
    ring
  · rw [toP_pscale]
    intro h0
    rcases mul_eq_zero.mp h0 with h | h
    · rw [Polynomial.C_eq_zero, inv_eq_zero] at h
      exact hc0 h
    · exact hqd0 h
  · refine ⟨Polynomial.C c * toP g, ?_⟩
    rw [toP_pscale, ← htd, hfd]
    have hone : Polynomial.C c * Polynomial.C c⁻¹ = 1 := by
      rw [← Polynomial.C_mul, mul_inv_cancel₀ hc0, Polynomial.C_1]
    calc toP g * toP qd
        = Polynomial.C c * Polynomial.C c⁻¹ * (toP g * toP qd) := by
          rw [hone, one_mul]
      _ = Polynomial.C c * toP g * (Polynomial.C c⁻¹ * toP qd) := by ring

theorem simpFrac_eval (n d : List ℚ) (s : ℚ) (hd : evalP d s ≠ 0) :
    evalP (simpFrac (n, d)).2 s ≠ 0 ∧
    evalFrac (simpFrac (n, d)) s = evalFrac (n, d) s := by
  have hdP : toP d ≠ 0 := by
    intro h
    apply hd
    rw [evalP_eq_eval, h, Polynomial.eval_zero]
  obtain ⟨hcross, hs2, u, hu⟩ := simpFrac_spec n d hdP
  have hs2e : evalP (simpFrac (n, d)).2 s ≠ 0 := by
    intro h0
    apply hd
    rw [evalP_eq_eval, hu, Polynomial.eval_mul]
    rw [evalP_eq_eval] at h0
    rw [h0, mul_zero]
  refine ⟨hs2e, ?_⟩
  have hev : evalP (simpFrac (n, d)).1 s * evalP d s
      = evalP (simpFrac (n, d)).2 s * evalP n s := by
    rw [evalP_eq_eval, evalP_eq_eval, evalP_eq_eval, evalP_eq_eval,
      ← Polynomial.eval_mul, ← Polynomial.eval_mul, hcross]
  simp only [evalFrac]
  rw [div_eq_div_iff hs2e hd, hev]
  ring

/-! ### Evaluation lemmas and unfolding helpers -/

theorem evalP_padd (a b : List ℚ) (s : ℚ) :
    evalP (padd a b) s = evalP a s + evalP b s := by
  rw [evalP_eq_eval, evalP_eq_eval, evalP_eq_eval, toP_padd, Polynomial.eval_add]

theorem evalP_pmul (a b : List ℚ) (s : ℚ) :
    evalP (pmul a b) s = evalP a s * evalP b s := by
  rw [evalP_eq_eval, evalP_eq_eval, evalP_eq_eval, toP_pmul, Polynomial.eval_mul]

theorem to_sympy_eq (f : TF) :
    f.to_sympy = simpFrac (f.num.reverse, f.den.reverse) := rfl

theorem from_sympy_num (x : Frac) : (TF.from_sympy x).num = (simpFrac x).1.reverse := rfl

theorem from_sympy_den (x : Frac) : (TF.from_sympy x).den = (simpFrac x).2.reverse := rfl

theorem add_tf_eq (f g : TF) :
    f.add (.tf g) = TF.from_sympy (fadd f.to_sympy g.to_sympy) := rfl

theorem evalPH_reverse (l : List ℚ) (s : ℚ) : evalPH l.reverse s = evalP l s := by
  rw [evalPH, List.reverse_reverse]

theorem simpFrac_congr (a b a' b' : List ℚ) (h1 : trim a = trim a')
    (h2 : trim b = trim b') : simpFrac (a, b) = simpFrac (a', b') := by
  simp only [simpFrac]
  rw [h1, h2]

theorem TF_add_eval (f g : TF) (s : ℚ) (hf : evalPH f.den s ≠ 0)
    (hg : evalPH g.den s ≠ 0) :
    evalPH (f.add (.tf g)).den s ≠ 0 ∧
    evalTF (f.add (.tf g)) s = evalTF f s + evalTF g s := by
  have hfe : evalP f.den.reverse s ≠ 0 := hf
  have hge : evalP g.den.reverse s ≠ 0 := hg
  obtain ⟨hA2, hAval⟩ := simpFrac_eval f.num.reverse f.den.reverse s hfe
  obtain ⟨hB2, hBval⟩ := simpFrac_eval g.num.reverse g.den.reverse s hge
  set A := simpFrac (f.num.reverse, f.den.reverse) with hAdef
  set B := simpFrac (g.num.reverse, g.den.reverse) with hBdef
  have hnum : evalP (fadd A B).1 s
      = evalP A.1 s * evalP B.2 s + evalP B.1 s * evalP A.2 s := by
    simp only [fadd]
    rw [evalP_padd, evalP_pmul, evalP_pmul]
  have hden : evalP (fadd A B).2 s = evalP A.2 s * evalP B.2 s := by
    simp only [fadd]
    rw [evalP_pmul]
  have hS2 : evalP (fadd A B).2 s ≠ 0 := by
    rw [hden]
    exact mul_ne_zero hA2 hB2
  have hSval : evalFrac (fadd A B) s = evalFrac A s + evalFrac B s := by
    simp only [evalFrac]
    rw [hnum, hden, div_add_div _ _ hA2 hB2]
    congr 1
    ring
  obtain ⟨hR2, hRval⟩ := simpFrac_eval (fadd A B).1 (fadd A B).2 s hS2
  have hRden : (f.add (.tf g)).den = (simpFrac (fadd A B)).2.reverse := by
    rw [add_tf_eq, from_sympy_den, to_sympy_eq, to_sympy_eq, ← hAdef, ← hBdef]
  have hRnum : (f.add (.tf g)).num = (simpFrac (fadd A B)).1.reverse := by
    rw [add_tf_eq, from_sympy_num, to_sympy_eq, to_sympy_eq, ← hAdef, ← hBdef]
  constructor
  · rw [hRden, evalPH_reverse]
    exact hR2
  · rw [evalTF, hRden, hRnum, evalPH_reverse, evalPH_reverse]
    have h1 : evalP (simpFrac (fadd A B)).1 s / evalP (simpFrac (fadd A B)).2 s
        = evalFrac (simpFrac (fadd A B)) s := rfl
    rw [h1, hRval, hSval]
    have h2 : evalFrac A s = evalTF f s := by
      rw [hAdef] at hAval
      rw [hAval]
      rfl
    have h3 : evalFrac B s = evalTF g s := by
      rw [hBdef] at hBval
      rw [hBval]
      rfl
    rw [h2, h3]

theorem evalPH_one (s : ℚ) : evalPH [1] s = 1 := by
  simp [evalPH, evalP]

theorem evalPH_var (s : ℚ) : evalPH [1, 0] s = s := by
  simp [evalPH, evalP]

theorem evalPH_dden (D s : ℚ) : evalPH [D / 8, 1] s = 1 + s * (D / 8) := by
  simp [evalPH, evalP]

theorem evalTF_gain (P s : ℚ) : evalTF ⟨[P], [1]⟩ s = P := by
  simp [evalTF, evalPH, evalP]

theorem evalTF_integr (I s : ℚ) : evalTF ⟨[I], [1, 0]⟩ s = I / s := by
  simp [evalTF, evalPH, evalP]

theorem evalTF_deriv (D s : ℚ) :
    evalTF ⟨[D, 0], [D / 8, 1]⟩ s = D * s / (D / 8 * s + 1) := by
  show evalPH [D, 0] s / evalPH [D / 8, 1] s = _
  rw [evalPH_dden]
  have hn : evalPH [D, 0] s = D * s := by simp [evalPH, evalP]; ring
  rw [hn]
  congr 1
  ring

/-- C6: for all gains `P, I, D`, `PID.__init__` builds the controller's
transfer function as the pure gain `P`, plus the pure integrator `I/s` only
when `I` is nonzero, plus the filtered derivative `D*s/((D/8)*s + 1)` only
when `D` is nonzero (stated as the value of the resulting rational function
at every point `s` where the summands are defined); in particular
`PID(2, 0, 0)` has a transfer function equal to `TF([2], [1])` exactly. -/
theorem PID_tf_spec :
    PID_tf 2 0 0 = ⟨[2], [1]⟩ ∧
    (∀ P : ℚ, PID_tf P 0 0 = ⟨[P], [1]⟩) ∧
    (∀ P I D s : ℚ, s ≠ 0 → D / 8 * s + 1 ≠ 0 →
      evalTF (PID_tf P I D) s
        = P + (if I = 0 then 0 else I / s)
            + (if D = 0 then 0 else D * s / (D / 8 * s + 1))) := by
  refine ⟨rfl, fun P => rfl, ?_⟩
  intro P I D s hs hD8
  have hgden : evalPH (⟨[P], [1]⟩ : TF).den s ≠ 0 := by
    show evalPH [1] s ≠ 0
    rw [evalPH_one]
    exact one_ne_zero
  have hiden : evalPH (⟨[I], [1, 0]⟩ : TF).den s ≠ 0 := by
    show evalPH [1, 0] s ≠ 0
    rw [evalPH_var]
    exact hs
  have hdden : evalPH (⟨[D, 0], [D / 8, 1]⟩ : TF).den s ≠ 0 := by
    show evalPH [D / 8, 1] s ≠ 0
    rw [evalPH_dden]
    intro h
    exact hD8 (by linear_combination h)
  by_cases hI : I = 0 <;> by_cases hD : D = 0
  · have hP : PID_tf P I D = ⟨[P], [1]⟩ := by
      simp only [PID_tf]
      rw [if_pos hI, if_pos hD]
    rw [hP, evalTF_gain, if_pos hI, if_pos hD]
    ring
  · have h2 := TF_add_eval ⟨[P], [1]⟩ ⟨[D, 0], [D / 8, 1]⟩ s hgden hdden
    have hP : PID_tf P I D = TF.add ⟨[P], [1]⟩ (.tf ⟨[D, 0], [D / 8, 1]⟩) := by
      simp only [PID_tf]
      rw [if_pos hI, if_neg hD]
    rw [hP, h2.2, evalTF_gain, evalTF_deriv, if_pos hI, if_neg hD]
    ring
  · have h1 := TF_add_eval ⟨[P], [1]⟩ ⟨[I], [1, 0]⟩ s hgden hiden
    have hP : PID_tf P I D = TF.add ⟨[P], [1]⟩ (.tf ⟨[I], [1, 0]⟩) := by
      simp only [PID_tf]
      rw [if_neg hI, if_pos hD]
    rw [hP, h1.2, evalTF_gain, evalTF_integr, if_neg hI, if_pos hD]
    ring
  · have h1 := TF_add_eval ⟨[P], [1]⟩ ⟨[I], [1, 0]⟩ s hgden hiden
    have h2 := TF_add_eval (TF.add ⟨[P], [1]⟩ (.tf ⟨[I], [1, 0]⟩))
      ⟨[D, 0], [D / 8, 1]⟩ s h1.1 hdden
    have hP : PID_tf P I D
        = TF.add (TF.add ⟨[P], [1]⟩ (.tf ⟨[I], [1, 0]⟩)) (.tf ⟨[D, 0], [D / 8, 1]⟩) := by
      simp only [PID_tf]
      rw [if_neg hI, if_neg hD]
    rw [hP, h2.2, h1.2, evalTF_gain, evalTF_integr, evalTF_deriv,
      if_neg hI, if_neg hD]

/-- Witness for C6 at `P = 1`, `I = 2`, `D = 8`, `s = 1`:
the hypotheses hold and the controller's transfer function evaluates to
`1 + 2/1 + 8*1/(8/8*1+1) = 7`. -/
theorem PID_tf_spec_witness :
    (1 : ℚ) ≠ 0 ∧ (8 : ℚ) / 8 * 1 + 1 ≠ 0 ∧ evalTF (PID_tf 1 2 8) 1 = 7 := by
  refine ⟨by norm_num, by norm_num, ?_⟩
  have h := PID_tf_spec.2.2 1 2 8 1 (by norm_num) (by norm_num)
  rw [h]
  norm_num

/-- C5: addition and multiplication of transfer functions are commutative
(`F + G` and `G + F` produce equal `TF`s, likewise `F * G` and `G * F`),
and the right-hand operator variants are literally the same operation as the
left-hand ones (`__rmul__ = __mul__`, `__radd__ = __add__`), so a plain
numeric scalar on either side produces the same result. -/
theorem TF_add_mul_comm :
    (∀ F G : TF, F.add (.tf G) = G.add (.tf F)) ∧
    (∀ F G : TF, F.mul (.tf G) = G.mul (.tf F)) ∧
    (∀ (F : TF) (c : ℚ), F.radd (.num c) = F.add (.num c)) ∧
    (∀ (F : TF) (c : ℚ), F.rmul (.num c) = F.mul (.num c)) := by
  refine ⟨?_, ?_, fun F c => rfl, fun F c => rfl⟩
  · intro F G
    show TF.from_sympy (fadd F.to_sympy G.to_sympy)
      = TF.from_sympy (fadd G.to_sympy F.to_sympy)
    have hs : simpFrac (fadd F.to_sympy G.to_sympy)
        = simpFrac (fadd G.to_sympy F.to_sympy) := by
      simp only [fadd]
      apply simpFrac_congr
      · rw [padd_comm]
      · apply trim_eq_of_toP_eq
        rw [toP_pmul, toP_pmul]
        ring
    show TF.mk (simpFrac (fadd F.to_sympy G.to_sympy)).1.reverse
        (simpFrac (fadd F.to_sympy G.to_sympy)).2.reverse
      = TF.mk (simpFrac (fadd G.to_sympy F.to_sympy)).1.reverse
        (simpFrac (fadd G.to_sympy F.to_sympy)).2.reverse
    rw [hs]
  · intro F G
    show TF.from_sympy (fmul F.to_sympy G.to_sympy)
      = TF.from_sympy (fmul G.to_sympy F.to_sympy)
    have hs : simpFrac (fmul F.to_sympy G.to_sympy)
        = simpFrac (fmul G.to_sympy F.to_sympy) := by
      simp only [fmul]
      apply simpFrac_congr
      · apply trim_eq_of_toP_eq
        rw [toP_pmul, toP_pmul]
        ring
      · apply trim_eq_of_toP_eq
        rw [toP_pmul, toP_pmul]
        ring
    show TF.mk (simpFrac (fmul F.to_sympy G.to_sympy)).1.reverse
        (simpFrac (fmul F.to_sympy G.to_sympy)).2.reverse
      = TF.mk (simpFrac (fmul G.to_sympy F.to_sympy)).1.reverse
        (simpFrac (fmul G.to_sympy F.to_sympy)).2.reverse
    rw [hs]

theorem pgcd_succ (f : ℕ) (a b : List ℚ) (hb : b ≠ []) :
    pgcd (f + 1) a b = pgcd f b (trim (pdivMod a b).2) := by
  simp only [pgcd]
  rw [if_neg hb]

theorem roundtrip_cex_eval :
    poly_from_sympy (poly_to_sympy [1, 1] [1, 2, 1] true) = ([1], [1, 1]) := by
  have d1 : pdivMod [1, 1] [1, 2, 1] = ([], [1, 1]) := by
    norm_num [pdivMod, divModAux, trim, lastC, shiftK, padd, pscale]
  have d2 : pdivMod [1, 2, 1] [1, 1] = ([1, 1], []) := by
    norm_num [pdivMod, divModAux, trim, lastC, shiftK, padd, pscale]
  have d3 : pdivMod [1, 1] [1, 1] = ([1], []) := by
    norm_num [pdivMod, divModAux, trim, lastC, shiftK, padd, pscale]
  have d4 : pdivMod [1] [1, 1] = ([], [1]) := by
    norm_num [pdivMod, divModAux, trim, lastC, shiftK, padd, pscale]
  have d5 : pdivMod [1, 1] [1] = ([1, 1], []) := by
    norm_num [pdivMod, divModAux, trim, lastC, shiftK, padd, pscale]
  have d6 : pdivMod [1] [1] = ([1], []) := by
    norm_num [pdivMod, divModAux, trim, lastC, shiftK, padd, pscale]
  have t2 : trim ([1, 2, 1] : List ℚ) = [1, 2, 1] := by norm_num [trim]
  have t1 : trim ([1, 1] : List ℚ) = [1, 1] := by norm_num [trim]
  have t0 : trim ([1] : List ℚ) = [1] := by norm_num [trim]
  have tn : trim ([] : List ℚ) = [] := rfl
  have l1 : lead ([1, 1] : List ℚ) = 1 := by norm_num [lead, lastC, trim]
  have g1 : pgcd 4 [1, 1] [1, 2, 1] = [1, 1] := by
    have e1 : pgcd 4 [1, 1] [1, 2, 1]
        = pgcd 3 [1, 2, 1] (trim (pdivMod [1, 1] [1, 2, 1]).2) :=
      pgcd_succ 3 [1, 1] [1, 2, 1] (by simp)
    rw [e1, d1]
    dsimp only
    rw [t1]
    have e2 : pgcd 3 [1, 2, 1] [1, 1]
        = pgcd 2 [1, 1] (trim (pdivMod [1, 2, 1] [1, 1]).2) :=
      pgcd_succ 2 [1, 2, 1] [1, 1] (by simp)
    rw [e2, d2]
    dsimp only
    rw [tn]
    exact pgcd_nil 2 [1, 1]
  have g2 : pgcd 3 [1] [1, 1] = [1] := by
    have e1 : pgcd 3 [1] [1, 1]
        = pgcd 2 [1, 1] (trim (pdivMod [1] [1, 1]).2) :=
      pgcd_succ 2 [1] [1, 1] (by simp)
    rw [e1, d4]
    dsimp only
    rw [t0]
    have e2 : pgcd 2 [1, 1] [1]
        = pgcd 1 [1] (trim (pdivMod [1, 1] [1]).2) :=
      pgcd_succ 1 [1, 1] [1] (by simp)
    rw [e2, d5]
    dsimp only
    rw [tn]
    exact pgcd_nil 1 [1]
  have s1 : simpFrac ([1, 1], [1, 2, 1]) = ([1], [1, 1]) := by
    rw [simpFrac_pos_unfold [1, 1] [1, 2, 1] (by rw [t2]; simp)]
    rw [t1, t2]
    simp only [List.length_cons, List.length_nil]
    norm_num
    rw [g1, d2, d3]
    dsimp only
    rw [l1]
    norm_num [pscale]
  have s2 : simpFrac ([1], [1, 1]) = ([1], [1, 1]) := by
    rw [simpFrac_pos_unfold [1] [1, 1] (by rw [t1]; simp)]
    rw [t0, t1]
    simp only [List.length_cons, List.length_nil]
    norm_num
    rw [g2, d5, d6]
    dsimp only
    rw [l1]
    norm_num [pscale]
  have hto : poly_to_sympy [1, 1] [1, 2, 1] true = simpFrac ([1, 1], [1, 2, 1]) := rfl
  have hfrom : poly_from_sympy (([1], [1, 1]) : Frac)
      = ((simpFrac ([1], [1, 1])).1.reverse, (simpFrac ([1], [1, 1])).2.reverse) := rfl
  rw [hto, s1, hfrom, s2]
  norm_num

/-- C4 counterexample: the round trip through `poly_to_sympy` and
`poly_from_sympy` at `num = [1, 1]`, `den = [1, 2, 1]` (that is,
`(s+1)/(s+1)^2`) returns `([1], [1, 1])`, which is not a common scalar
multiple of the input pair: simplification cancels the common polynomial
factor `s + 1`, not merely a scalar. -/
theorem poly_roundtrip_not_scalar_multiple :
    poly_from_sympy (poly_to_sympy [1, 1] [1, 2, 1] true) = ([1], [1, 1]) ∧
    ¬ ∃ c : ℚ, (poly_from_sympy (poly_to_sympy [1, 1] [1, 2, 1] true)).1
          = pscale c [1, 1] ∧
        (poly_from_sympy (poly_to_sympy [1, 1] [1, 2, 1] true)).2
          = pscale c [1, 2, 1] := by
  have hrt : poly_from_sympy (poly_to_sympy [1, 1] [1, 2, 1] true) = ([1], [1, 1]) :=
    roundtrip_cex_eval
  refine ⟨hrt, ?_⟩
  rintro ⟨c, h1, h2⟩
  rw [hrt] at h2
  dsimp only at h2
  have hlen := congrArg List.length h2
  simp [pscale] at hlen

/-- C4 (amended): for every coefficient pair `(num, den)` with `den` not the
zero polynomial, the round trip through `poly_to_sympy` and `poly_from_sympy`
yields a pair with nonzero denominator that represents the same rational
function: all common polynomial factors are cancelled, so the result equals
`(num, den)` up to a common polynomial (not in general merely scalar)
factor, expressed by the cross-multiplication identity. -/
theorem poly_roundtrip_same_function (num den : List ℚ)
    (hden : trim den.reverse ≠ []) :
    toP (poly_from_sympy (poly_to_sympy num den true)).1.reverse * toP den.reverse
      = toP (poly_from_sympy (poly_to_sympy num den true)).2.reverse * toP num.reverse ∧
    toP (poly_from_sympy (poly_to_sympy num den true)).2.reverse ≠ 0 := by
  have hdP : toP den.reverse ≠ 0 := fun h => hden ((toP_eq_zero_iff _).mp h)
  obtain ⟨h1cross, h1ne, -⟩ := simpFrac_spec num.reverse den.reverse hdP
  obtain ⟨h2cross, h2ne, -⟩ :=
    simpFrac_spec (simpFrac (num.reverse, den.reverse)).1
      (simpFrac (num.reverse, den.reverse)).2 h1ne
  have hunf1 : (poly_from_sympy (poly_to_sympy num den true)).1.reverse
      = (simpFrac (simpFrac (num.reverse, den.reverse))).1 := by
    show (simpFrac (poly_to_sympy num den true)).1.reverse.reverse = _
    rw [List.reverse_reverse]
    rfl
  have hunf2 : (poly_from_sympy (poly_to_sympy num den true)).2.reverse
      = (simpFrac (simpFrac (num.reverse, den.reverse))).2 := by
    show (simpFrac (poly_to_sympy num den true)).2.reverse.reverse = _
    rw [List.reverse_reverse]
    rfl
  rw [hunf1, hunf2]
  constructor
  · apply mul_right_cancel₀ h1ne
    linear_combination toP den.reverse * h2cross
      + toP (simpFrac (simpFrac (num.reverse, den.reverse))).2 * h1cross
  · exact h2ne

/-- Witness for C4 (amended) at `num = [2]`, `den = [3]`. -/
theorem poly_roundtrip_same_function_witness :
    trim (List.reverse ([3] : List ℚ)) ≠ [] ∧
    (toP (poly_from_sympy (poly_to_sympy [2] [3] true)).1.reverse
        * toP (List.reverse ([3] : List ℚ))
      = toP (poly_from_sympy (poly_to_sympy [2] [3] true)).2.reverse
        * toP (List.reverse ([2] : List ℚ)) ∧
    toP (poly_from_sympy (poly_to_sympy [2] [3] true)).2.reverse ≠ 0) :=
  ⟨by norm_num [trim], poly_roundtrip_same_function [2] [3] (by norm_num [trim])⟩

/-- C1: for every transfer function whose stored `num` and `den` are both
single scalars, `apply_f u x Ts` returns the pair `(k * u, x)` with
`k = num[0] / den[0]`: the static gain is applied (elementwise) to any
input `u` and the state `x` is returned unchanged, for every backend,
state and period. -/
theorem apply_f_static_gain (bk : StepBackend) (f : TF) (u : NpVal) (x : List ℚ)
    (Ts : ℚ) (hn : f.num.length = 1) (hd : f.den.length = 1) :
    TF.apply_f bk f u x Ts
      = (npMap (fun t => f.num.headD 0 / f.den.headD 0 * t) u, x) := by
  simp only [TF.apply_f]
  rw [if_pos ⟨hd, hn⟩]
  have hfun : (fun t => t * f.num.headD 0 / f.den.headD 0)
      = fun t => f.num.headD 0 / f.den.headD 0 * t := by
    funext t
    ring
  rw [hfun]

/-- Witness for C1 with `num = [3]`, `den = [2]`, `u = [4, 6]`, `x = [9]`:
the output is the static gain `3/2` applied elementwise and the state is
unchanged. -/
theorem apply_f_static_gain_witness :
    (([3] : List ℚ).length = 1) ∧ (([2] : List ℚ).length = 1) ∧
    TF.apply_f trivialBackend ⟨[3], [2]⟩ (NpVal.arr [4, 6]) [9] 1
      = (NpVal.arr [6, 9], [9]) := by
  refine ⟨rfl, rfl, ?_⟩
  rw [apply_f_static_gain trivialBackend ⟨[3], [2]⟩ (NpVal.arr [4, 6]) [9] 1 rfl rfl]
  norm_num [npMap]

/-- C2 (code behavior): in the general branch of `apply_f` the returned
output is a 1-D array of `u.size` elements for every input shape.  The
"put back in same order" block tests the rebound local `u`, which always
holds the normalized value, so its first two branches are dead and its
transpose branch never fires for a row matrix; the final
`y.reshape(y.size)` then flattens unconditionally.  Hence a scalar input
yields a 1-D array (not a scalar) and a row-matrix input yields a 1-D
array (not a row matrix); only the 1-D case keeps its orientation.
The normalization of `u` to a column is as described. -/
theorem apply_f_shape_flattens :
    (∀ s : NpShape, apply_f_shape s = NpShape.oneD (npsize s)) ∧
    apply_f_shape NpShape.scalar ≠ NpShape.scalar ∧
    apply_f_shape (NpShape.twoD 1 3) ≠ NpShape.twoD 1 3 ∧
    (∀ n : ℕ, apply_f_shape (NpShape.oneD n) = NpShape.oneD n) ∧
    normShape NpShape.scalar = NpShape.twoD 1 1 ∧
    (∀ n : ℕ, normShape (NpShape.oneD n) = NpShape.twoD n 1) := by
  have hmain : ∀ s : NpShape, apply_f_shape s = NpShape.oneD (npsize s) := by
    intro s
    cases s with
    | scalar => rfl
    | oneD n => simp [apply_f_shape, normShape, putbackShape, npsize]
    | twoD m n =>
      by_cases hn : n = 1
      · subst hn
        simp [apply_f_shape, normShape, putbackShape, transposeShape, npsize]
      · by_cases hm : m = 1
        · subst hm
          simp [apply_f_shape, normShape, putbackShape, transposeShape, npsize, hn]
        · simp [apply_f_shape, normShape, putbackShape, transposeShape, npsize, hn, hm]
          ring
  refine ⟨hmain, by decide, by decide, ?_, rfl, fun n => rfl⟩
  intro n
  rw [hmain (NpShape.oneD n)]
  rfl

/-- C3: at every bin of the estimated response, the denominator actually
divided by is nonzero; where the reference FFT bin `A i` is exactly zero,
the fixed reference bin is set to one and the returned response bin is
exactly zero, and in general the returned bin is
`if A i = 0 then 0 else C i / A i` — never a division by zero.  `A` and
`C` are the FFTs of the reference and of the channel (the FFT itself is
the external `np.fft.fft`). -/
theorem TF_from_signal_no_div_by_zero {F : Type} [Field F] [DecidableEq F]
    (A C : List F) (half i : ℕ)
    (hi : i < (TF_from_signal_chan A C half).length) :
    (fixA A).getD i 1 ≠ 0 ∧
    (A.getD i 0 = 0 → (fixA A).getD i 1 = 1) ∧
    (TF_from_signal_chan A C half).getD i 0
      = if A.getD i 0 = 0 then 0 else C.getD i 0 / A.getD i 0 := by
  have hlen : (TF_from_signal_chan A C half).length
      ≤ (fftRatio A C).length := by
    simp [TF_from_signal_chan]
  have hlen2 : (fftRatio A C).length = min (min C.length A.length) A.length := by
    simp [fftRatio, fixC, fixA]
  have hiA : i < A.length := by omega
  have hiC : i < C.length := by omega
  have hifix : i < (fixA A).length := by simp [fixA]; omega
  have hAget : A.getD i 0 = A[i] := List.getD_eq_getElem A 0 hiA
  have hfixget : (fixA A).getD i 1 = if A[i] = 0 then 1 else A[i] := by
    rw [List.getD_eq_getElem (fixA A) 1 hifix]
    simp [fixA]
  refine ⟨?_, ?_, ?_⟩
  · rw [hfixget]
    by_cases h : A[i] = 0
    · rw [if_pos h]
      exact one_ne_zero
    · rw [if_neg h]
      exact h
  · intro h0
    rw [hAget] at h0
    rw [hfixget, if_pos h0]
  · have hir : i < (fftRatio A C).length := by omega
    rw [List.getD_eq_getElem _ 0 hi]
    have htake : (TF_from_signal_chan A C half)[i]
        = (fftRatio A C)[i] := by
      simp only [TF_from_signal_chan]
      exact List.getElem_take _
    rw [htake]
    have hratio : (fftRatio A C)[i]
        = (if A[i] = 0 then (0 : F) else C[i]) / (if A[i] = 0 then 1 else A[i]) := by
      simp only [fftRatio]
      rw [List.getElem_zipWith]
      congr 1
      · simp only [fixC]
        rw [List.getElem_zipWith]
      · simp only [fixA]
        rw [List.getElem_map]
    rw [hratio, hAget, List.getD_eq_getElem C 0 hiC]
    by_cases h : A[i] = 0
    · simp only [if_pos h]
      exact zero_div 1
    · simp only [if_neg h]

/-- Witness for C3 over `ℚ` with `A = [0, 2]`, `C = [5, 7]`, `half = 2`,
`i = 0`: the zero reference bin maps to a fixed reference of one and an
estimated response of exactly zero. -/
theorem TF_from_signal_no_div_by_zero_witness :
    0 < (TF_from_signal_chan ([0, 2] : List ℚ) [5, 7] 2).length ∧
    ((fixA ([0, 2] : List ℚ)).getD 0 1 ≠ 0 ∧
      (([0, 2] : List ℚ).getD 0 0 = 0 → (fixA ([0, 2] : List ℚ)).getD 0 1 = 1) ∧
      (TF_from_signal_chan ([0, 2] : List ℚ) [5, 7] 2).getD 0 0
        = if ([0, 2] : List ℚ).getD 0 0 = 0 then 0
          else ([5, 7] : List ℚ).getD 0 0 / ([0, 2] : List ℚ).getD 0 0) := by
  have hl : 0 < (TF_from_signal_chan ([0, 2] : List ℚ) [5, 7] 2).length := by
    simp [TF_from_signal_chan, fftRatio, fixC, fixA]
  exact ⟨hl, TF_from_signal_no_div_by_zero [0, 2] [5, 7] 2 0 hl⟩

/-! ### The PID error-buffer update and the heap-threaded step -/

theorem getD_length_sub_one (r : List ℚ) (h : r ≠ []) :
    r.getD (r.length - 1) 0 = r.getLastD 0 := by
  induction r with
  | nil => exact absurd rfl h
  | cons x xs ih =>
    cases xs with
    | nil => rfl
    | cons y ys =>
      have hih := ih (List.cons_ne_nil _ _)
      have hstep : (x :: y :: ys).getD ((x :: y :: ys).length - 1) 0
          = (y :: ys).getD ((y :: ys).length - 1) 0 := by
        simp only [List.length_cons]
        rw [show ys.length + 1 + 1 - 1 = (ys.length + 1 - 1) + 1 by omega,
          List.getD_cons_succ]
      rw [hstep, hih, List.getLastD_cons 0 x (y :: ys), List.getLastD_cons x y ys,
        ← List.getLastD_cons 0 y ys]

theorem getD_penultimate (r : List ℚ) (h : 2 ≤ r.length) :
    r.getD (r.length - 2) 0 = r.reverse.getD 1 0 := by
  have h1 : 1 < r.reverse.length := by
    simp only [List.length_reverse]
    omega
  rw [List.getD_eq_getElem r 0 (by omega), List.getD_eq_getElem r.reverse 0 h1,
    List.getElem_reverse]
  simp only [show r.length - 1 - 1 = r.length - 2 from by omega]

/-- C7: for every PID gains, every 2-D error history with at least two
time samples per channel and every step `Ts > 0`, `apply_fd e Ts` succeeds
and returns per channel
`kP*e_last + kI*Ts*(sum of errors) + kD*(e_last - e_second_last)/Ts`;
in particular `PID(1,1,0).apply_fd [[0,1,2]] 1 = [5]`. -/
theorem apply_fd_formula :
    (∀ (kP kI kD Ts : ℚ) (e : List (List ℚ)) (N : ℕ), 2 ≤ N →
      (∀ r ∈ e, r.length = N) → 0 < Ts → ∀ i, i < e.length →
      ∃ ys, PID.apply_fd ⟨kP, kI, kD⟩ e Ts = some ys ∧
        ys.getD i 0
          = kP * (e.getD i []).getLastD 0 + kI * Ts * (e.getD i []).sum
            + kD * ((e.getD i []).getLastD 0 - (e.getD i []).reverse.getD 1 0) / Ts) ∧
    PID.apply_fd ⟨1, 1, 0⟩ [[0, 1, 2]] 1 = some [5] := by
  constructor
  · intro kP kI kD Ts e N hN hrows hTs i hie
    have hne : e ≠ [] := by
      intro h
      rw [h] at hie
      simp at hie
    have hncols : ncols e = N := by
      cases e with
      | nil => exact absurd rfl hne
      | cons r rs =>
        show r.length = N
        exact hrows r (List.mem_cons_self r rs)
    have hcond : 2 ≤ ncols e := by omega
    have happ : PID.apply_fd ⟨kP, kI, kD⟩ e Ts
        = some (e.map fun r => kP * r.getD (r.length - 1) 0 + kI * r.sum * Ts
            + kD * (r.getD (r.length - 1) 0 - r.getD (r.length - 2) 0) / Ts) := by
      simp only [PID.apply_fd]
      rw [if_pos hcond]
    refine ⟨_, happ, ?_⟩
    have hmlen : i < (e.map fun r => kP * r.getD (r.length - 1) 0 + kI * r.sum * Ts
        + kD * (r.getD (r.length - 1) 0 - r.getD (r.length - 2) 0) / Ts).length := by
      simpa using hie
    rw [List.getD_eq_getElem _ 0 hmlen, List.getElem_map,
      List.getD_eq_getElem e [] hie]
    have hrlen : e[i].length = N := hrows _ (List.getElem_mem hie)
    have hrne : e[i] ≠ [] := by
      intro h
      rw [h] at hrlen
      simp at hrlen
      omega
    rw [getD_length_sub_one e[i] hrne, getD_penultimate e[i] (by omega)]
    ring
  · norm_num [PID.apply_fd, ncols]

/-- Witness for C7 at gains `(1, 1, 0)`, history `[[0, 1, 2]]`, `Ts = 1`,
channel `0`. -/
theorem apply_fd_formula_witness :
    (2 ≤ 3) ∧ (∀ r ∈ ([[0, 1, 2]] : List (List ℚ)), r.length = 3) ∧
    ((0 : ℚ) < 1) ∧ 0 < ([[0, 1, 2]] : List (List ℚ)).length ∧
    ∃ ys, PID.apply_fd ⟨1, 1, 0⟩ [[0, 1, 2]] 1 = some ys ∧
      ys.getD 0 0
        = 1 * (([[0, 1, 2]] : List (List ℚ)).getD 0 []).getLastD 0
          + 1 * 1 * (([[0, 1, 2]] : List (List ℚ)).getD 0 []).sum
          + 0 * ((([[0, 1, 2]] : List (List ℚ)).getD 0 []).getLastD 0
              - (([[0, 1, 2]] : List (List ℚ)).getD 0 []).reverse.getD 1 0) / 1 := by
  refine ⟨by norm_num, by norm_num, by norm_num, by norm_num, ?_⟩
  exact apply_fd_formula.1 1 1 0 1 [[0, 1, 2]] 3 (by norm_num) (by norm_num)
    (by norm_num) 0 (by norm_num)

/-- C10: `apply_fd` evaluates the backward difference `e[:, -1] - e[:, -2]`
unconditionally, even when `kD = 0`, so it fails (modelled as `none`,
numpy's `IndexError`) on any error history with a single time sample,
whatever the gains. -/
theorem apply_fd_single_sample (kP kI kD Ts : ℚ) (e : List (List ℚ))
    (h : ncols e = 1) :
    PID.apply_fd ⟨kP, kI, kD⟩ e Ts = none := by
  simp only [PID.apply_fd]
  rw [if_neg (by omega)]

/-- Witness for C10 with gains `(3, 4, 0)` (`kD` zero) on the one-sample
history `[[7]]`. -/
theorem apply_fd_single_sample_witness :
    ncols [[(7 : ℚ)]] = 1 ∧ PID.apply_fd ⟨3, 4, 0⟩ [[7]] 1 = none :=
  ⟨rfl, apply_fd_single_sample 3 4 0 1 [[7]] rfl⟩

/-- C9 counterexample: the degenerate branch of `apply_f` (source line 154)
returns the caller's own `x` object as `x_next`, not a newly computed
state: on the store `[[5], [3], [7]]` with the scalar transfer function at
`numR = 0`, `denR = 1` and the caller's state at the pre-existing
reference `xR = 2`, the returned state reference is `2 = xR` itself and
the store is unchanged (nothing was allocated). -/
theorem apply_f_degenerate_state_alias :
    (apply_f_heap trivialBackend 0 1 2 (NpVal.scalar 2) 1 [[5], [3], [7]]).1.2 = 2 ∧
    2 < ([[5], [3], [7]] : List (List ℚ)).length ∧
    (apply_f_heap trivialBackend 0 1 2 (NpVal.scalar 2) 1 [[5], [3], [7]]).2
      = [[5], [3], [7]] :=
  ⟨rfl, by norm_num, rfl⟩

/-- C9 (amended): `apply_f` mutates nothing — every array present before
the call (in particular the caller's state `x` and the transfer function's
`num`/`den`) is unchanged in the returned store.  The returned next state
is a freshly allocated reference, distinct from every pre-existing one,
exactly in the general (dynamics) branch; in the degenerate branch the
returned state is the caller's own `x` reference passed through. -/
theorem apply_f_no_mutation (bk : StepBackend) (numR denR xR : ℕ) (u : NpVal)
    (Ts : ℚ) (s : List (List ℚ)) (r : ℕ) (hr : r < s.length) :
    (apply_f_heap bk numR denR xR u Ts s).2.getD r [] = s.getD r [] ∧
    (¬ ((s.getD denR []).length = 1 ∧ (s.getD numR []).length = 1) →
      r ≠ (apply_f_heap bk numR denR xR u Ts s).1.2) ∧
    (((s.getD denR []).length = 1 ∧ (s.getD numR []).length = 1) →
      (apply_f_heap bk numR denR xR u Ts s).1.2 = xR) := by
  by_cases hc : (s.getD denR []).length = 1 ∧ (s.getD numR []).length = 1
  · have hres : apply_f_heap bk numR denR xR u Ts s
        = (((TF.apply_f bk ⟨s.getD numR [], s.getD denR []⟩
              u (s.getD xR []) Ts).1, xR), s) := by
      simp only [apply_f_heap]
      rw [if_pos hc]
    rw [hres]
    exact ⟨rfl, fun h => absurd hc h, fun _ => rfl⟩
  · have hres : apply_f_heap bk numR denR xR u Ts s
        = (((TF.apply_f bk ⟨s.getD numR [], s.getD denR []⟩
              u (s.getD xR []) Ts).1, s.length),
           s ++ [(TF.apply_f bk ⟨s.getD numR [], s.getD denR []⟩
              u (s.getD xR []) Ts).2]) := by
      simp only [apply_f_heap, alloc]
      rw [if_neg hc]
    rw [hres]
    refine ⟨List.getD_append s _ [] r hr, fun _ => ?_, fun h => absurd h hc⟩
    show r ≠ s.length
    omega

/-- Witness for C9 (amended) on the three-array store `[[1, 0], [1], [0]]`
with dynamics (the denominator `[1, 0]` at reference `0` has two
coefficients): the pre-existing state array at reference `2` is unchanged
and the returned state reference is fresh. -/
theorem apply_f_no_mutation_witness :
    2 < ([[1, 0], [1], [0]] : List (List ℚ)).length ∧
    ¬ ((([[1, 0], [1], [0]] : List (List ℚ)).getD 0 []).length = 1 ∧
        (([[1, 0], [1], [0]] : List (List ℚ)).getD 1 []).length = 1) ∧
    ((apply_f_heap trivialBackend 1 0 2 (NpVal.scalar 1) 1
          [[1, 0], [1], [0]]).2.getD 2 [] = [0] ∧
      2 ≠ (apply_f_heap trivialBackend 1 0 2 (NpVal.scalar 1) 1
          [[1, 0], [1], [0]]).1.2) := by
  have hd : ¬ ((([[1, 0], [1], [0]] : List (List ℚ)).getD 0 []).length = 1 ∧
      (([[1, 0], [1], [0]] : List (List ℚ)).getD 1 []).length = 1) := by
    norm_num
  have h := apply_f_no_mutation trivialBackend 1 0 2 (NpVal.scalar 1) 1
    [[1, 0], [1], [0]] 2 (by norm_num)
  exact ⟨by norm_num, hd, h.1.trans (by rfl), h.2.1 hd⟩

/-! ### The bilinear discretization -/

theorem evalP_pscale (c : ℚ) (l : List ℚ) (s : ℚ) :
    evalP (pscale c l) s = c * evalP l s := by
  rw [evalP_eq_eval, evalP_eq_eval, toP_pscale, Polynomial.eval_mul,
    Polynomial.eval_C]

theorem evalP_ppow (p : List ℚ) (n : ℕ) (z : ℚ) :
    evalP (ppow p n) z = evalP p z ^ n := by
  induction n with
  | zero => simp [ppow, evalP]
  | succ m ih =>
    show evalP (pmul p (ppow p m)) z = _
    rw [evalP_pmul, ih, pow_succ]
    ring

theorem evalP_zm1 (z : ℚ) : evalP [-1, 1] z = z - 1 := by
  simp [evalP]
  ring

theorem evalP_zp1 (z : ℚ) : evalP [1, 1] z = z + 1 := by
  simp [evalP]
  ring

theorem tustinAux_eval (c z : ℚ) (hz : z + 1 ≠ 0) :
    ∀ (a : List ℚ) (i j : ℕ), a.length ≤ j + 1 →
      evalP (tustinAux c i j a) z
        = c ^ i * (z - 1) ^ i * (z + 1) ^ j * evalP a (c * (z - 1) / (z + 1)) := by
  intro a
  induction a with
  | nil =>
    intro i j h
    simp [tustinAux, evalP]
  | cons a0 as ih =>
    intro i j h
    show evalP (padd (pscale (a0 * c ^ i) (pmul (ppow [-1, 1] i) (ppow [1, 1] j)))
        (tustinAux c (i + 1) (j - 1) as)) z = _
    rw [evalP_padd, evalP_pscale, evalP_pmul, evalP_ppow, evalP_ppow,
      evalP_zm1, evalP_zp1]
    cases as with
    | nil =>
      show _ + evalP (tustinAux c (i + 1) (j - 1) []) z = _
      simp only [tustinAux]
      show _ + evalP [] z = _
      simp only [evalP]
      ring
    | cons b bs =>
      obtain ⟨j', rfl⟩ : ∃ j', j = j' + 1 := by
        refine ⟨j - 1, ?_⟩
        simp only [List.length_cons] at h
        omega
      have hrec := ih (i + 1) j' (by simp only [List.length_cons] at h ⊢; omega)
      rw [show j' + 1 - 1 = j' from rfl, hrec]
      conv_rhs => rw [evalP]
      field_simp
      ring

/-- C8 counterexample: `as_poly_z` does not fail for negative `Ts`; at
`Ts = -1 ≤ 0` on the integrator `TF([1], [1, 0])` it returns a result.
The source performs no validation of `Ts`. -/
theorem as_poly_z_no_failure_at_negative_Ts :
    ((-1 : ℚ) ≤ 0) ∧ TF.as_poly_z ⟨[1], [1, 0]⟩ (-1) ≠ none := by
  constructor
  · norm_num
  · simp only [TF.as_poly_z]
    rw [if_neg (by norm_num)]
    simp

/-- C8 (amended): `as_poly_z Ts` fails only at `Ts = 0`, where the Tustin
substitution is undefined; for every `Ts ≠ 0` — including negative `Ts` —
it returns the bilinear-transform discretization of `(num, den)`: a
rational expression in `z` whose value at every admissible `z` equals the
continuous transfer function evaluated at `s = (2/Ts)·(z-1)/(z+1)`. -/
theorem as_poly_z_spec :
    (∀ f : TF, f.as_poly_z 0 = none) ∧
    (∀ (f : TF) (Ts z : ℚ), Ts ≠ 0 → z + 1 ≠ 0 →
      evalPH f.den (2 / Ts * (z - 1) / (z + 1)) ≠ 0 →
      ∃ fr, f.as_poly_z Ts = some fr ∧ evalP fr.2 z ≠ 0 ∧
        evalFrac fr z = evalTF f (2 / Ts * (z - 1) / (z + 1))) := by
  constructor
  · intro f
    simp [TF.as_poly_z]
  · intro f Ts z hTs hz hden
    have hres : f.as_poly_z Ts = some (simpFrac
        (tustinAux (2 / Ts) 0 (max f.num.reverse.length f.den.reverse.length - 1)
          f.num.reverse,
         tustinAux (2 / Ts) 0 (max f.num.reverse.length f.den.reverse.length - 1)
          f.den.reverse)) := by
      simp only [TF.as_poly_z]
      rw [if_neg hTs]
    have hdne : f.den.reverse ≠ [] := by
      intro h
      apply hden
      show evalP f.den.reverse (2 / Ts * (z - 1) / (z + 1)) = 0
      rw [h]
      rfl
    have hm1 : 1 ≤ max f.num.reverse.length f.den.reverse.length :=
      le_trans (List.length_pos.mpr hdne) (le_max_right _ _)
    have hnum_le : f.num.reverse.length
        ≤ (max f.num.reverse.length f.den.reverse.length - 1) + 1 := by
      have := le_max_left f.num.reverse.length f.den.reverse.length
      omega
    have hden_le : f.den.reverse.length
        ≤ (max f.num.reverse.length f.den.reverse.length - 1) + 1 := by
      have := le_max_right f.num.reverse.length f.den.reverse.length
      omega
    have hnume := tustinAux_eval (2 / Ts) z hz f.num.reverse 0
      (max f.num.reverse.length f.den.reverse.length - 1) hnum_le
    have hdene := tustinAux_eval (2 / Ts) z hz f.den.reverse 0
      (max f.num.reverse.length f.den.reverse.length - 1) hden_le
    simp only [pow_zero, one_mul] at hnume hdene
    have hdz : evalP (tustinAux (2 / Ts) 0
        (max f.num.reverse.length f.den.reverse.length - 1) f.den.reverse) z ≠ 0 := by
      rw [hdene]
      exact mul_ne_zero (pow_ne_zero _ hz) hden
    obtain ⟨hs2, hval⟩ := simpFrac_eval _ _ z hdz
    refine ⟨_, hres, hs2, ?_⟩
    rw [hval]
    show evalP (tustinAux (2 / Ts) 0
          (max f.num.reverse.length f.den.reverse.length - 1) f.num.reverse) z
        / evalP (tustinAux (2 / Ts) 0
          (max f.num.reverse.length f.den.reverse.length - 1) f.den.reverse) z
      = evalTF f (2 / Ts * (z - 1) / (z + 1))
    rw [hnume, hdene, mul_div_mul_left _ _ (pow_ne_zero _ hz)]
    rfl

/-- Witness for C8 (amended): the integrator `TF([1], [1, 0])` at `Ts = 2`
and `z = 3` (`w = 1/2`). -/
theorem as_poly_z_spec_witness :
    ((2 : ℚ) ≠ 0) ∧ ((3 : ℚ) + 1 ≠ 0) ∧
    evalPH [1, 0] (2 / 2 * ((3 : ℚ) - 1) / (3 + 1)) ≠ 0 ∧
    (∃ fr, TF.as_poly_z ⟨[1], [1, 0]⟩ 2 = some fr ∧ evalP fr.2 3 ≠ 0 ∧
      evalFrac fr 3 = evalTF ⟨[1], [1, 0]⟩ (2 / 2 * ((3 : ℚ) - 1) / (3 + 1))) := by
  have h3 : evalPH [1, 0] (2 / 2 * ((3 : ℚ) - 1) / (3 + 1)) ≠ 0 := by
    norm_num [evalPH, evalP]
  exact ⟨by norm_num, by norm_num, h3,
    as_poly_z_spec.2 ⟨[1], [1, 0]⟩ 2 3 (by norm_num) (by norm_num) h3⟩
